import Mathlib

/-!
Verification of the client-pool dispatch module (src/client_pool.c).

The module manages a fixed list of wrapped clients (`pool->l_clients`) and a
FIFO queue of awaiting requests (`pool->q_requests`).  The embedding below
represents the opaque C pointers by type parameters: `H` is the client handle
(`gpointer client`), `C` is the identity of an `on_client_ready` callback
(function pointer), `X` is the opaque caller context (`gpointer ctx`).
Callback invocations are side effects in C; here every operation returns the
list of invocations it performs, in order, as data.

In the C struct each `PoolClient` carries its own capability pointers
(`client_check_rediness`, `client_destroy`, `client_get_info`), but
`client_pool_create` stores the same capability functions in every client, so
the embedding passes the shared capability as an explicit argument to each
operation that uses it.
-/

/-- The `RequestData` record of client_pool.c: a queued request holding the
caller's `on_client_ready` callback and the opaque context pointer. -/
structure RequestData (C X : Type) where
  on_client_ready : C
  ctx : X
  deriving DecidableEq

/-- The pool state visible to the dispatch logic: the client list
(`pool->l_clients`, creation order, each client represented by its opaque
handle) and the wait queue (`pool->q_requests`, head = oldest). -/
structure ClientPool (H C X : Type) where
  l_clients : List H
  q_requests : List (RequestData C X)
  deriving DecidableEq

/-- The readiness scan of `client_pool_get_client` (the loop at
client_pool.c:134-142): walk the client list in creation order and return the
first client whose readiness capability reports true, or `none` if every
client is busy. -/
def scan_ready {H : Type} (client_check_rediness : H → Bool) : List H → Option H
  | [] => none
  | c :: rest =>
      if client_check_rediness c then some c
      else scan_ready client_check_rediness rest

/-- Embedding of `client_pool_get_client` (client_pool.c:121-153).
Returns the gboolean result, the wait queue after the call, and the list of
synchronous callback invocations `(callback, handle, ctx)` performed by the
call (empty, or a single one when a ready client is found). -/
def client_pool_get_client {H C X : Type} (l_clients : List H)
    (q_requests : List (RequestData C X)) (max_requests : Nat)
    (client_check_rediness : H → Bool) (on_client_ready : C) (ctx : X) :
    Bool × List (RequestData C X) × List (C × H × X) :=
  if q_requests.length ≥ max_requests then
    (false, q_requests, [])
  else
    match scan_ready client_check_rediness l_clients with
    | some client => (true, q_requests, [(on_client_ready, client, ctx)])
    | none => (true, q_requests ++ [⟨on_client_ready, ctx⟩], [])

/-- Embedding of `client_pool_on_client_released` (client_pool.c:105-117):
pop the head of the wait queue; if a request was pending, invoke its callback
with the released client's handle and the request's own context and discard
the record; otherwise do nothing.  Returns the queue after the call and the
list of invocations performed (note: no readiness scan is involved). -/
def client_pool_on_client_released {H C X : Type} (client : H)
    (q_requests : List (RequestData C X)) :
    List (RequestData C X) × List (C × H × X) :=
  match q_requests with
  | [] => ([], [])
  | data :: rest => (rest, [(data.on_client_ready, client, data.ctx)])

/-- Embedding of `client_pool_create` (client_pool.c:49-85).  The C loop calls
`client_create (app)` once per iteration; the factory is stateful in C, so the
embedding indexes each call by the iteration number.  Returns the constructed
pool together with the list of handles passed to `client_set_on_released_cb`
(one wiring call per constructed client, in creation order).  The C code never
inspects the factory's result: a NULL handle is stored and wired like any
other, and the function unconditionally returns the pool. -/
def client_pool_create {H C X : Type} (client_count : Nat)
    (client_create : Nat → H) : ClientPool H C X × List H :=
  let handles := (List.range client_count).map client_create
  (⟨handles, []⟩, handles)

/-- One observable action of `client_pool_destroy`. -/
inductive DestroyEv (H C X : Type) where
  | freeWaiter (w : RequestData C X)
  | destroyClient (h : H)
  | invokeWaiter (cb : C) (h : H) (ctx : X)
  deriving DecidableEq

/-- Handles passed to the `client_destroy` capability, in order. -/
def destroyedClients {H C X : Type} (evs : List (DestroyEv H C X)) : List H :=
  evs.filterMap (fun e => match e with
    | DestroyEv.destroyClient h => some h
    | _ => none)

/-- Queued requests freed without being invoked, in order. -/
def freedWaiters {H C X : Type} (evs : List (DestroyEv H C X)) :
    List (RequestData C X) :=
  evs.filterMap (fun e => match e with
    | DestroyEv.freeWaiter w => some w
    | _ => none)

/-- Waiter callbacks invoked, in order. -/
def invokedWaiters {H C X : Type} (evs : List (DestroyEv H C X)) :
    List (C × H × X) :=
  evs.filterMap (fun e => match e with
    | DestroyEv.invokeWaiter cb h x => some (cb, h, x)
    | _ => none)

/-- Embedding of `client_pool_destroy` (client_pool.c:87-102) as its trace of
observable actions in execution order: `g_queue_free_full` frees every queued
`RequestData` with `g_free` (their callbacks are not invoked), then the loop
calls `client_destroy` on every client's handle. -/
def client_pool_destroy {H C X : Type} (pool : ClientPool H C X) :
    List (DestroyEv H C X) :=
  pool.q_requests.map (fun w => DestroyEv.freeWaiter w)
    ++ pool.l_clients.map (fun h => DestroyEv.destroyClient h)

/-- The `ClientInfo` record: an opaque payload produced by the client's
`client_get_info` capability plus the `pool_name` field that
`client_pool_get_task_list` overwrites (`N` stands for the string type). -/
structure ClientInfo (N I : Type) where
  info : I
  pool_name : N
  deriving DecidableEq

/-- Embedding of `client_pool_get_task_list` (client_pool.c:155-167): for
every client in list order, obtain its info record via `client_get_info`,
overwrite its `pool_name` with the supplied name, and append it to the
caller's accumulator.  The function reads `pool` but assigns none of its
fields; the returned pool component records its (unchanged) post-state. -/
def client_pool_get_task_list {H C X N I : Type} (pool : ClientPool H C X)
    (client_get_info : H → ClientInfo N I) (l_tasks : List (ClientInfo N I))
    (pool_name : N) : ClientPool H C X × List (ClientInfo N I) :=
  (pool,
    pool.l_clients.foldl
      (fun acc h => acc ++ [{ client_get_info h with pool_name := pool_name }])
      l_tasks)

/-!
Closed-system model.

For the invariant and temporal claims the pool is composed with the
environment described by the spec: one busy flag per wrapped client (true
while the client has an in-flight request), with the readiness capability
reporting true exactly when the client is not busy, and with a client
becoming busy exactly when a callback invocation hands it to a caller.
Client `i`'s opaque handle is represented by the index `i` itself, so the
client list of the pool is `List.range n`.
-/

/-- Closed-system state: per-client busy flags (creation order) and the
pool's wait queue. -/
structure SysState (C X : Type) where
  busy : List Bool
  q : List (RequestData C X)
  deriving DecidableEq

/-- Initial state: `n` freshly created idle clients, empty wait queue. -/
def initState {C X : Type} (n : Nat) : SysState C X :=
  ⟨List.replicate n false, []⟩

/-- External stimuli: an `acquire` call (`client_pool_get_client`) or a
release notification from client `i` (the client finished its in-flight
request and its implementation invokes the wired release callback). -/
inductive Ev (C X : Type) where
  | acq (cb : C) (ctx : X)
  | rel (i : Nat)
  deriving DecidableEq

/-- Observable outcomes of one step: a synchronous callback invocation from
the readiness scan (`serve`), a request appended to the wait queue (`enq`),
an admission-control rejection (`reject`), completion of client `i`'s
in-flight request (`complete`), and a callback invocation performed by the
release notification handing the released client to the oldest waiter
(`handoff`). -/
inductive Obs (C X : Type) where
  | serve (cb : C) (i : Nat) (ctx : X)
  | enq (w : RequestData C X)
  | reject (cb : C) (ctx : X)
  | complete (i : Nat)
  | handoff (w : RequestData C X) (i : Nat)
  deriving DecidableEq

/-- Environment transition: handing a client to a caller starts a request on
it, so each client that received a callback invocation becomes busy (the
Idle→Busy transition of the spec's per-client state machine). -/
def markBusy {C X : Type} (busy : List Bool) (invs : List (C × Nat × X)) :
    List Bool :=
  invs.foldl (fun b t => b.set t.2.1 true) busy

/-- One `acquire` call against the closed system: run the embedded
`client_pool_get_client` with readiness read from the environment
(`isReady i` iff client `i` is not busy), then apply the environment's
Idle→Busy transition to a synchronously served client. -/
def stepAcq {C X : Type} (maxq : Nat) (s : SysState C X) (cb : C) (ctx : X) :
    SysState C X × List (Obs C X) :=
  let r := client_pool_get_client (List.range s.busy.length) s.q maxq
      (fun i => !(s.busy.getD i true)) cb ctx
  if r.1 then
    if r.2.2.isEmpty then (⟨s.busy, r.2.1⟩, [Obs.enq ⟨cb, ctx⟩])
    else (⟨markBusy s.busy r.2.2, r.2.1⟩,
      r.2.2.map (fun t => Obs.serve t.1 t.2.1 t.2.2))
  else (⟨s.busy, r.2.1⟩, [Obs.reject cb ctx])

/-- One release notification from client `i`: only a busy client can finish a
request (an idle client never notifies), so the event is a no-op otherwise.
The client first becomes idle, then the embedded
`client_pool_on_client_released` runs; a popped waiter receives client `i`'s
handle and the client becomes busy again. -/
def stepRel {C X : Type} (s : SysState C X) (i : Nat) :
    SysState C X × List (Obs C X) :=
  if s.busy.getD i false then
    let r := client_pool_on_client_released i s.q
    (⟨markBusy (s.busy.set i false) r.2, r.1⟩,
      Obs.complete i :: r.2.map (fun t => Obs.handoff ⟨t.1, t.2.2⟩ t.2.1))
  else (s, [])

/-- One closed-system step. -/
def step {C X : Type} (maxq : Nat) (s : SysState C X) :
    Ev C X → SysState C X × List (Obs C X)
  | Ev.acq cb ctx => stepAcq maxq s cb ctx
  | Ev.rel i => stepRel s i

/-- Run a sequence of events, concatenating the observations. -/
def run {C X : Type} (maxq : Nat) (s : SysState C X) :
    List (Ev C X) → SysState C X × List (Obs C X)
  | [] => (s, [])
  | e :: es =>
      let p := step maxq s e
      let r := run maxq p.1 es
      (r.1, p.2 ++ r.2)

/-- Synchronous invocations performed by the readiness scan, in order. -/
def obsServes {C X : Type} (os : List (Obs C X)) : List (C × Nat × X) :=
  os.filterMap (fun o => match o with
    | Obs.serve cb i ctx => some (cb, i, ctx)
    | _ => none)

/-- Requests appended to the wait queue, in order. -/
def obsEnqueues {C X : Type} (os : List (Obs C X)) : List (RequestData C X) :=
  os.filterMap (fun o => match o with
    | Obs.enq w => some w
    | _ => none)

/-- Admission-control rejections, in order. -/
def obsRejects {C X : Type} (os : List (Obs C X)) : List (C × X) :=
  os.filterMap (fun o => match o with
    | Obs.reject cb ctx => some (cb, ctx)
    | _ => none)

/-- Waiters served by release notifications (hand-off protocol), in order. -/
def obsHandoffs {C X : Type} (os : List (Obs C X)) : List (RequestData C X) :=
  os.filterMap (fun o => match o with
    | Obs.handoff w _ => some w
    | _ => none)

/-- Number of callback invocations that handed client `i` to a caller
(readiness scan or hand-off). -/
def servesAt {C X : Type} (i : Nat) (os : List (Obs C X)) : Nat :=
  os.countP (fun o => match o with
    | Obs.serve _ j _ => j == i
    | Obs.handoff _ j => j == i
    | _ => false)

/-- Number of completed requests on client `i`. -/
def completesAt {C X : Type} (i : Nat) (os : List (Obs C X)) : Nat :=
  os.countP (fun o => match o with
    | Obs.complete j => j == i
    | _ => false)

/-- Number of clients currently busy. -/
def busyCount {C X : Type} (s : SysState C X) : Nat :=
  s.busy.count true

/-- Number of `acquire` calls in an event sequence. -/
def countAcq {C X : Type} (es : List (Ev C X)) : Nat :=
  es.countP (fun e => match e with
    | Ev.acq _ _ => true
    | _ => false)

/-!
Helper lemmas: `List.getD` vs `List.set`, the readiness scan, and the
branches of the embedded operations.
-/

/-- `getD` after `set` at the written index, when in range. -/
theorem getD_set_self {α : Type} (l : List α) (j : Nat) (v d : α)
    (h : j < l.length) : (l.set j v).getD j d = v := by
  induction l generalizing j with
  | nil => simp at h
  | cons a t ih =>
      cases j with
      | zero => rfl
      | succ j =>
          simp only [List.set_cons_succ, List.getD_cons_succ]
          exact ih j (Nat.lt_of_succ_lt_succ h)

/-- `getD` after `set` at a different index. -/
theorem getD_set_other {α : Type} (l : List α) (i j : Nat) (v d : α)
    (h : i ≠ j) : (l.set j v).getD i d = l.getD i d := by
  induction l generalizing i j with
  | nil => rfl
  | cons a t ih =>
      cases j with
      | zero =>
          cases i with
          | zero => exact absurd rfl h
          | succ i => simp only [List.set_cons_zero, List.getD_cons_succ]
      | succ j =>
          cases i with
          | zero => simp only [List.set_cons_succ, List.getD_cons_zero]
          | succ i =>
              simp only [List.set_cons_succ, List.getD_cons_succ]
              exact ih i j (fun e => h (by rw [e]))

/-- In range, `getD` does not depend on the default. -/
theorem getD_indep {α : Type} (l : List α) (i : Nat) (d d' : α)
    (h : i < l.length) : l.getD i d = l.getD i d' := by
  induction l generalizing i with
  | nil => simp at h
  | cons a t ih =>
      cases i with
      | zero => rfl
      | succ i =>
          simp only [List.getD_cons_succ]
          exact ih i (Nat.lt_of_succ_lt_succ h)

/-- `getD` of `replicate` at its own element. -/
theorem getD_replicate {α : Type} (a : α) (n i : Nat) :
    (List.replicate n a).getD i a = a := by
  induction n generalizing i with
  | zero => rfl
  | succ n ih =>
      cases i with
      | zero => rfl
      | succ i => simpa only [List.replicate_succ, List.getD_cons_succ] using ih i

/-- The scan returns `none` iff no client passes the readiness check. -/
theorem scan_ready_none {H : Type} (f : H → Bool) (l : List H)
    (h : ∀ x ∈ l, f x = false) : scan_ready f l = none := by
  induction l with
  | nil => rfl
  | cons a t ih =>
      simp only [scan_ready, h a (List.mem_cons_self a t), if_neg]
      exact ih (fun x hx => h x (List.mem_cons_of_mem a hx))

/-- A successful scan returns a ready member of the list. -/
theorem scan_ready_some {H : Type} (f : H → Bool) (l : List H) (c : H)
    (h : scan_ready f l = some c) : f c = true ∧ c ∈ l := by
  induction l with
  | nil => exact absurd h (by simp [scan_ready])
  | cons a t ih =>
      by_cases ha : f a = true
      · simp only [scan_ready, ha, if_pos] at h
        have hac : a = c := by injection h
        subst hac
        exact ⟨ha, List.mem_cons_self a t⟩
      · simp only [scan_ready, ha, if_neg, Bool.false_eq_true] at h
        rcases ih h with ⟨h1, h2⟩
        exact ⟨h1, List.mem_cons_of_mem a h2⟩

/-- The scan returns the first ready client in creation order. -/
theorem scan_ready_first {H : Type} (f : H → Bool) (l : List H) (d : H)
    (i : Nat) (hi : i < l.length) (hf : f (l.getD i d) = true)
    (hbefore : ∀ j, j < i → f (l.getD j d) = false) :
    scan_ready f l = some (l.getD i d) := by
  induction l generalizing i with
  | nil => simp at hi
  | cons a t ih =>
      cases i with
      | zero =>
          simp only [List.getD_cons_zero] at hf ⊢
          simp [scan_ready, hf]
      | succ i =>
          have h0 : f a = false := by
            simpa only [List.getD_cons_zero] using hbefore 0 (Nat.succ_pos i)
          simp only [List.getD_cons_succ] at hf ⊢
          simp only [scan_ready, h0, Bool.false_eq_true, if_neg]
          exact ih i (Nat.lt_of_succ_lt_succ hi) hf
            (fun j hj => by
              simpa only [List.getD_cons_succ] using
                hbefore (j+1) (Nat.succ_lt_succ hj))

/-- Branch of `client_pool_get_client`: full queue, admission rejection. -/
theorem get_client_full {H C X : Type} {l : List H}
    {q : List (RequestData C X)} {maxr : Nat} {f : H → Bool} {cb : C} {ctx : X}
    (h : maxr ≤ q.length) :
    client_pool_get_client l q maxr f cb ctx = (false, q, []) := by
  unfold client_pool_get_client
  rw [if_pos h]

/-- Branch of `client_pool_get_client`: queue below bound, scan succeeds. -/
theorem get_client_ready {H C X : Type} {l : List H}
    {q : List (RequestData C X)} {maxr : Nat} {f : H → Bool} {cb : C} {ctx : X}
    {c : H} (hlt : q.length < maxr) (hscan : scan_ready f l = some c) :
    client_pool_get_client l q maxr f cb ctx = (true, q, [(cb, c, ctx)]) := by
  unfold client_pool_get_client
  rw [if_neg (Nat.not_le.mpr hlt), hscan]

/-- Branch of `client_pool_get_client`: queue below bound, no ready client. -/
theorem get_client_busyAll {H C X : Type} {l : List H}
    {q : List (RequestData C X)} {maxr : Nat} {f : H → Bool} {cb : C} {ctx : X}
    (hlt : q.length < maxr) (hscan : scan_ready f l = none) :
    client_pool_get_client l q maxr f cb ctx
      = (true, q ++ [⟨cb, ctx⟩], []) := by
  unfold client_pool_get_client
  rw [if_neg (Nat.not_le.mpr hlt), hscan]

/-- A successful scan over the closed-system readiness predicate names an
in-range idle client. -/
theorem scan_some_idle {C X : Type} (s : SysState C X) (j : Nat)
    (hscan : scan_ready (fun i => !(s.busy.getD i true))
      (List.range s.busy.length) = some j) :
    j < s.busy.length ∧ s.busy.getD j false = false := by
  rcases scan_ready_some _ _ _ hscan with ⟨hf, hmem⟩
  have hj : j < s.busy.length := List.mem_range.mp hmem
  have hval : s.busy.getD j true = false := by simpa using hf
  exact ⟨hj, by rw [getD_indep s.busy j false true hj]; exact hval⟩

/-- Branch of `stepAcq`: admission rejection. -/
theorem stepAcq_reject {C X : Type} (maxq : Nat) (s : SysState C X) (cb : C)
    (ctx : X) (hge : maxq ≤ s.q.length) :
    stepAcq maxq s cb ctx = (⟨s.busy, s.q⟩, [Obs.reject cb ctx]) := by
  simp only [stepAcq]
  rw [get_client_full hge]
  rfl

/-- Branch of `stepAcq`: a ready client is served synchronously and becomes
busy. -/
theorem stepAcq_serve {C X : Type} (maxq : Nat) (s : SysState C X) (cb : C)
    (ctx : X) (j : Nat) (hlt : s.q.length < maxq)
    (hscan : scan_ready (fun i => !(s.busy.getD i true))
      (List.range s.busy.length) = some j) :
    stepAcq maxq s cb ctx
      = (⟨s.busy.set j true, s.q⟩, [Obs.serve cb j ctx]) := by
  simp only [stepAcq]
  rw [get_client_ready hlt hscan]
  rfl

/-- Branch of `stepAcq`: no ready client, the caller is queued. -/
theorem stepAcq_enq {C X : Type} (maxq : Nat) (s : SysState C X) (cb : C)
    (ctx : X) (hlt : s.q.length < maxq)
    (hscan : scan_ready (fun i => !(s.busy.getD i true))
      (List.range s.busy.length) = none) :
    stepAcq maxq s cb ctx
      = (⟨s.busy, s.q ++ [⟨cb, ctx⟩]⟩, [Obs.enq ⟨cb, ctx⟩]) := by
  simp only [stepAcq]
  rw [get_client_busyAll hlt hscan]
  rfl

/-- Branch of `stepRel`: an idle client issues no notification. -/
theorem stepRel_idle {C X : Type} (s : SysState C X) (i : Nat)
    (hb : s.busy.getD i false = false) : stepRel s i = (s, []) := by
  unfold stepRel
  rw [hb]
  rfl

/-- Branch of `stepRel`: release with an empty wait queue; the client simply
becomes idle. -/
theorem stepRel_complete {C X : Type} (s : SysState C X) (i : Nat)
    (hb : s.busy.getD i false = true) (hq : s.q = []) :
    stepRel s i = (⟨s.busy.set i false, []⟩, [Obs.complete i]) := by
  unfold stepRel
  rw [hb, hq]
  rfl

/-- Branch of `stepRel`: release with a pending waiter; the oldest waiter is
popped and handed the released client, which becomes busy again. -/
theorem stepRel_pop {C X : Type} (s : SysState C X) (i : Nat)
    (w : RequestData C X) (rest : List (RequestData C X))
    (hb : s.busy.getD i false = true) (hq : s.q = w :: rest) :
    stepRel s i
      = (⟨s.busy.set i true, rest⟩, [Obs.complete i, Obs.handoff w i]) := by
  unfold stepRel
  rw [hb, hq]
  show ((⟨(s.busy.set i false).set i true, rest⟩ : SysState C X),
      [Obs.complete i, Obs.handoff w i]) = _
  rw [List.set_set]

/-- `step` on an `acquire` event. -/
theorem step_acq {C X : Type} (maxq : Nat) (s : SysState C X) (cb : C)
    (ctx : X) : step maxq s (Ev.acq cb ctx) = stepAcq maxq s cb ctx := rfl

/-- `step` on a release event. -/
theorem step_rel {C X : Type} (maxq : Nat) (s : SysState C X) (i : Nat) :
    step maxq s (Ev.rel i) = stepRel s i := rfl

/-- `run` on the empty event sequence. -/
theorem run_nil {C X : Type} (maxq : Nat) (s : SysState C X) :
    run maxq s [] = (s, []) := rfl

/-- `run` decomposes one step at a time. -/
theorem run_cons {C X : Type} (maxq : Nat) (s : SysState C X) (e : Ev C X)
    (es : List (Ev C X)) :
    run maxq s (e :: es)
      = ((run maxq (step maxq s e).1 es).1,
          (step maxq s e).2 ++ (run maxq (step maxq s e).1 es).2) := rfl

/-- A step never changes the number of wrapped clients. -/
theorem busy_length_step {C X : Type} (maxq : Nat) (s : SysState C X)
    (e : Ev C X) : ((step maxq s e).1).busy.length = s.busy.length := by
  cases e with
  | acq cb ctx =>
      rcases Nat.lt_or_ge s.q.length maxq with hlt | hge
      · cases hscan : scan_ready (fun i => !(s.busy.getD i true))
            (List.range s.busy.length) with
        | none => rw [step_acq, stepAcq_enq maxq s cb ctx hlt hscan]
        | some j =>
            rw [step_acq, stepAcq_serve maxq s cb ctx j hlt hscan]
            simp
      · rw [step_acq, stepAcq_reject maxq s cb ctx hge]
  | rel i =>
      cases hb : s.busy.getD i false with
      | false => rw [step_rel, stepRel_idle s i hb]
      | true =>
          cases hq : s.q with
          | nil =>
              rw [step_rel, stepRel_complete s i hb hq]
              simp
          | cons w rest =>
              rw [step_rel, stepRel_pop s i w rest hb hq]
              simp

/-- A run never changes the number of wrapped clients. -/
theorem busy_length_run {C X : Type} (maxq : Nat) (es : List (Ev C X))
    (s : SysState C X) :
    ((run maxq s es).1).busy.length = s.busy.length := by
  induction es generalizing s with
  | nil => rfl
  | cons e es ih =>
      rw [run_cons]
      exact (ih (step maxq s e).1).trans (busy_length_step maxq s e)

/-- `obsServes` distributes over concatenation. -/
theorem obsServes_append {C X : Type} (a b : List (Obs C X)) :
    obsServes (a ++ b) = obsServes a ++ obsServes b :=
  List.filterMap_append a b _

/-- `obsEnqueues` distributes over concatenation. -/
theorem obsEnqueues_append {C X : Type} (a b : List (Obs C X)) :
    obsEnqueues (a ++ b) = obsEnqueues a ++ obsEnqueues b :=
  List.filterMap_append a b _

/-- `obsRejects` distributes over concatenation. -/
theorem obsRejects_append {C X : Type} (a b : List (Obs C X)) :
    obsRejects (a ++ b) = obsRejects a ++ obsRejects b :=
  List.filterMap_append a b _

/-- `obsHandoffs` distributes over concatenation. -/
theorem obsHandoffs_append {C X : Type} (a b : List (Obs C X)) :
    obsHandoffs (a ++ b) = obsHandoffs a ++ obsHandoffs b :=
  List.filterMap_append a b _

/-- `servesAt` adds over concatenation. -/
theorem servesAt_append {C X : Type} (i : Nat) (a b : List (Obs C X)) :
    servesAt i (a ++ b) = servesAt i a + servesAt i b :=
  List.countP_append _ a b

/-- `completesAt` adds over concatenation. -/
theorem completesAt_append {C X : Type} (i : Nat) (a b : List (Obs C X)) :
    completesAt i (a ++ b) = completesAt i a + completesAt i b :=
  List.countP_append _ a b

/-- First projection of `run` on a cons. -/
theorem run_cons_fst {C X : Type} (maxq : Nat) (s : SysState C X) (e : Ev C X)
    (es : List (Ev C X)) :
    (run maxq s (e :: es)).1 = (run maxq (step maxq s e).1 es).1 := rfl

/-- Second projection of `run` on a cons. -/
theorem run_cons_snd {C X : Type} (maxq : Nat) (s : SysState C X) (e : Ev C X)
    (es : List (Ev C X)) :
    (run maxq s (e :: es)).2
      = (step maxq s e).2 ++ (run maxq (step maxq s e).1 es).2 := rfl

/-- One step preserves the wait-queue bound. -/
theorem qlen_le_step {C X : Type} (maxq : Nat) (s : SysState C X) (e : Ev C X)
    (h : s.q.length ≤ maxq) : ((step maxq s e).1).q.length ≤ maxq := by
  cases e with
  | acq cb ctx =>
      rcases Nat.lt_or_ge s.q.length maxq with hlt | hge
      · cases hscan : scan_ready (fun i => !(s.busy.getD i true))
            (List.range s.busy.length) with
        | none =>
            rw [step_acq, stepAcq_enq maxq s cb ctx hlt hscan]
            simp only [List.length_append, List.length_cons, List.length_nil]
            omega
        | some j =>
            rw [step_acq, stepAcq_serve maxq s cb ctx j hlt hscan]
            exact h
      · rw [step_acq, stepAcq_reject maxq s cb ctx hge]
        exact h
  | rel i =>
      cases hb : s.busy.getD i false with
      | false =>
          rw [step_rel, stepRel_idle s i hb]
          exact h
      | true =>
          cases hq : s.q with
          | nil =>
              rw [step_rel, stepRel_complete s i hb hq]
              simp
          | cons w rest =>
              rw [step_rel, stepRel_pop s i w rest hb hq]
              have hlen : rest.length ≤ s.q.length := by rw [hq]; simp
              exact le_trans hlen h

/-- One step: conservation of the wait queue — what was in the queue plus
what gets enqueued equals what gets handed off plus what remains. -/
theorem queue_step {C X : Type} (maxq : Nat) (s : SysState C X) (e : Ev C X) :
    s.q ++ obsEnqueues (step maxq s e).2
      = obsHandoffs (step maxq s e).2 ++ ((step maxq s e).1).q := by
  cases e with
  | acq cb ctx =>
      rcases Nat.lt_or_ge s.q.length maxq with hlt | hge
      · cases hscan : scan_ready (fun i => !(s.busy.getD i true))
            (List.range s.busy.length) with
        | none =>
            rw [step_acq, stepAcq_enq maxq s cb ctx hlt hscan]
            simp [obsEnqueues, obsHandoffs]
        | some j =>
            rw [step_acq, stepAcq_serve maxq s cb ctx j hlt hscan]
            simp [obsEnqueues, obsHandoffs]
      · rw [step_acq, stepAcq_reject maxq s cb ctx hge]
        simp [obsEnqueues, obsHandoffs]
  | rel i =>
      cases hb : s.busy.getD i false with
      | false =>
          rw [step_rel, stepRel_idle s i hb]
          simp [obsEnqueues, obsHandoffs]
      | true =>
          cases hq : s.q with
          | nil =>
              rw [step_rel, stepRel_complete s i hb hq]
              simp [obsEnqueues, obsHandoffs]
          | cons w rest =>
              rw [step_rel, stepRel_pop s i w rest hb hq]
              simp [obsEnqueues, obsHandoffs]

/-- Conservation of the wait queue over a whole run: the starting queue
followed by all enqueued waiters equals the handed-off waiters followed by
the final queue.  In particular the hand-off order is exactly queue order. -/
theorem queue_conservation {C X : Type} (maxq : Nat) (es : List (Ev C X))
    (s : SysState C X) :
    s.q ++ obsEnqueues (run maxq s es).2
      = obsHandoffs (run maxq s es).2 ++ ((run maxq s es).1).q := by
  induction es generalizing s with
  | nil =>
      show s.q ++ obsEnqueues ([] : List (Obs C X))
        = obsHandoffs ([] : List (Obs C X)) ++ s.q
      simp [obsEnqueues, obsHandoffs]
  | cons e es ih =>
      rw [run_cons_snd, run_cons_fst, obsEnqueues_append, obsHandoffs_append]
      rw [← List.append_assoc, queue_step maxq s e, List.append_assoc,
        ih ((step maxq s e).1), ← List.append_assoc]

/-- One step preserves the in-flight accounting of client `i`: invocations
handing out client `i` so far, plus its initial in-flight request if any,
equal its completed requests plus its current in-flight request if any. -/
theorem inflight_step {C X : Type} (maxq : Nat) (i : Nat) (s : SysState C X)
    (e : Ev C X) :
    servesAt i (step maxq s e).2 + (s.busy.getD i false).toNat
      = completesAt i (step maxq s e).2
        + (((step maxq s e).1).busy.getD i false).toNat := by
  cases e with
  | acq cb ctx =>
      rcases Nat.lt_or_ge s.q.length maxq with hlt | hge
      · cases hscan : scan_ready (fun k => !(s.busy.getD k true))
            (List.range s.busy.length) with
        | none =>
            rw [step_acq, stepAcq_enq maxq s cb ctx hlt hscan]
            simp [servesAt, completesAt]
        | some j =>
            rw [step_acq, stepAcq_serve maxq s cb ctx j hlt hscan]
            rcases scan_some_idle s j hscan with ⟨hj, hidle⟩
            by_cases hij : j = i
            · subst hij
              rw [getD_set_self s.busy j true false hj, hidle]
              simp [servesAt, completesAt]
            · rw [getD_set_other s.busy i j true false
                  (fun e2 => hij (by rw [e2]))]
              simp [servesAt, completesAt, hij]
      · rw [step_acq, stepAcq_reject maxq s cb ctx hge]
        simp [servesAt, completesAt]
  | rel i0 =>
      cases hb : s.busy.getD i0 false with
      | false =>
          rw [step_rel, stepRel_idle s i0 hb]
          simp [servesAt, completesAt]
      | true =>
          have hi0 : i0 < s.busy.length := by
            by_contra hge
            rw [List.getD_eq_default] at hb
            · exact Bool.false_ne_true hb
            · omega
          cases hq : s.q with
          | nil =>
              rw [step_rel, stepRel_complete s i0 hb hq]
              by_cases hii : i0 = i
              · subst hii
                rw [getD_set_self s.busy i0 false false hi0, hb]
                simp [servesAt, completesAt]
              · rw [getD_set_other s.busy i i0 false false
                    (fun e2 => hii (by rw [e2]))]
                simp [servesAt, completesAt, hii]
          | cons w rest =>
              rw [step_rel, stepRel_pop s i0 w rest hb hq]
              by_cases hii : i0 = i
              · subst hii
                rw [getD_set_self s.busy i0 true false hi0, hb]
                simp [servesAt, completesAt]
              · rw [getD_set_other s.busy i i0 true false
                    (fun e2 => hii (by rw [e2]))]
                simp [servesAt, completesAt, hii]

/-- In-flight accounting over a whole run. -/
theorem inflight_run {C X : Type} (maxq : Nat) (i : Nat) (es : List (Ev C X))
    (s : SysState C X) :
    servesAt i (run maxq s es).2 + (s.busy.getD i false).toNat
      = completesAt i (run maxq s es).2
        + (((run maxq s es).1).busy.getD i false).toNat := by
  induction es generalizing s with
  | nil => rfl
  | cons e es ih =>
      rw [run_cons_snd, run_cons_fst, servesAt_append, completesAt_append]
      have h1 := inflight_step maxq i s e
      have h2 := ih ((step maxq s e).1)
      omega

/-- In range, `getD` agrees with `get`. -/
theorem getD_eq_get {α : Type} (l : List α) (d : α) (i : Nat)
    (h : i < l.length) : l.getD i d = l.get ⟨i, h⟩ := by
  induction l generalizing i with
  | nil => simp at h
  | cons a t ih =>
      cases i with
      | zero => rfl
      | succ i =>
          simp only [List.getD_cons_succ]
          exact ih i (Nat.lt_of_succ_lt_succ h)

/-- C1: `client_pool_get_client` implements the three-step dispatch
algorithm.  (a) If the wait queue has reached `max_requests` it returns
`false`, with the queue unchanged and no callback invoked.  Otherwise (b) if
client `i` is the first one in creation order whose readiness check is true,
the call invokes `callback(handle_i, ctx)` synchronously (exactly one
invocation) and returns `true` with the queue unchanged; and (c) if no client
passes the readiness check, the call appends `Waiter(callback, ctx)` to the
tail of the wait queue, invokes nothing, and returns `true`. -/
theorem get_client_dispatch {H C X : Type} (l : List H)
    (q : List (RequestData C X)) (maxr : Nat) (f : H → Bool) (cb : C) (ctx : X)
    (d : H) :
    (maxr ≤ q.length →
      client_pool_get_client l q maxr f cb ctx = (false, q, []))
    ∧ (q.length < maxr → ∀ i, i < l.length → f (l.getD i d) = true →
        (∀ j, j < i → f (l.getD j d) = false) →
        client_pool_get_client l q maxr f cb ctx
          = (true, q, [(cb, l.getD i d, ctx)]))
    ∧ (q.length < maxr → (∀ i, i < l.length → f (l.getD i d) = false) →
        client_pool_get_client l q maxr f cb ctx
          = (true, q ++ [⟨cb, ctx⟩], [])) := by
  refine ⟨fun h => get_client_full h, fun hlt i hi hf hb => ?_,
    fun hlt hall => ?_⟩
  · exact get_client_ready hlt (scan_ready_first f l d i hi hf hb)
  · refine get_client_busyAll hlt (scan_ready_none f l ?_)
    intro x hx
    rcases List.mem_iff_get.mp hx with ⟨k, hk⟩
    have hx2 := hall k.1 k.2
    rw [getD_eq_get l d k.1 k.2, hk] at hx2
    exact hx2

/-- Witness for C1, one concrete instance per branch: full queue rejection,
first-ready-client service, and queuing when no client is ready. -/
theorem get_client_dispatch_witness :
    client_pool_get_client [5, 7] [(⟨1, 1⟩ : RequestData Nat Nat)] 1
        (fun h => h == 7) 0 0 = (false, [⟨1, 1⟩], [])
    ∧ client_pool_get_client [5, 7] ([] : List (RequestData Nat Nat)) 2
        (fun h => h == 7) 0 0 = (true, [], [(0, 7, 0)])
    ∧ client_pool_get_client [5, 7] ([] : List (RequestData Nat Nat)) 2
        (fun _ => false) 0 0 = (true, [⟨0, 0⟩], []) := by
  refine ⟨?_, ?_, ?_⟩
  · exact (get_client_dispatch [5, 7] [⟨1, 1⟩] 1 (fun h => h == 7) 0 0 0).1
      (by decide)
  · exact (get_client_dispatch [5, 7] ([] : List (RequestData Nat Nat)) 2
      (fun h => h == 7) 0 0 0).2.1 (by decide) 1 (by decide) (by decide)
      (by decide)
  · exact (get_client_dispatch [5, 7] ([] : List (RequestData Nat Nat)) 2
      (fun _ => false) 0 0 0).2.2 (by decide) (fun i hi => rfl)

/-- C2: the release notification pops the oldest waiter if any and invokes
its callback synchronously with the released client's handle and the
waiter's own context, then discards the record (no readiness scan is run:
the embedded function does not even consult a readiness capability); on an
empty queue it changes nothing and invokes no callback. -/
theorem on_client_released_spec {H C X : Type} (client : H)
    (q : List (RequestData C X)) :
    (q = [] → client_pool_on_client_released client q = ([], []))
    ∧ (∀ w rest, q = w :: rest →
        client_pool_on_client_released client q
          = (rest, [(w.on_client_ready, client, w.ctx)])) := by
  constructor
  · intro h
    subst h
    rfl
  · intro w rest h
    subst h
    rfl

/-- Witness for C2: empty-queue and non-empty-queue instances. -/
theorem on_client_released_spec_witness :
    client_pool_on_client_released (5 : Nat) ([] : List (RequestData Nat Nat))
        = ([], [])
    ∧ client_pool_on_client_released (5 : Nat)
        [(⟨7, 9⟩ : RequestData Nat Nat), ⟨8, 2⟩]
        = ([⟨8, 2⟩], [(7, 5, 9)]) :=
  ⟨(on_client_released_spec 5 []).1 rfl,
    (on_client_released_spec 5 [⟨7, 9⟩, ⟨8, 2⟩]).2 ⟨7, 9⟩ [⟨8, 2⟩] rfl⟩

/-- C5: in every reachable pool state the wait-queue length is at most the
configured maximum: `acquire` rejects (enqueuing nothing) at the bound, and
no operation evicts a waiter to make room. -/
theorem wait_queue_bounded {C X : Type} (n maxq : Nat) (es : List (Ev C X)) :
    ((run maxq (initState n) es).1).q.length ≤ maxq := by
  have key : ∀ (fs : List (Ev C X)) (s : SysState C X), s.q.length ≤ maxq →
      ((run maxq s fs).1).q.length ≤ maxq := by
    intro fs
    induction fs with
    | nil => intro s hs; exact hs
    | cons e es2 ih =>
        intro s hs
        rw [run_cons_fst]
        exact ih _ (qlen_le_step maxq s e hs)
  exact key es (initState n) (Nat.zero_le maxq)

/-- C4: at most one request is in flight per wrapped client, for every
interleaving of `acquire` calls and release notifications with readiness
reporting true exactly when the client has no in-flight request: the number
of times the pool hands client `i` to a caller equals the number of
completed requests on `i` plus its current in-flight request (0 or 1), and
in particular never exceeds completions plus one — the pool never hands a
client to a second caller before the first use completes. -/
theorem at_most_one_inflight {C X : Type} (n maxq i : Nat)
    (es : List (Ev C X)) :
    servesAt i (run maxq (initState n) es).2
      = completesAt i (run maxq (initState n) es).2
        + (((run maxq (initState n) es).1).busy.getD i false).toNat
    ∧ servesAt i (run maxq (initState n) es).2
      ≤ completesAt i (run maxq (initState n) es).2 + 1 := by
  have h := inflight_run maxq i es (initState n)
  have h0 : ((initState n : SysState C X)).busy.getD i false = false := by
    show (List.replicate n false).getD i false = false
    exact getD_replicate false n i
  rw [h0] at h
  simp only [Bool.toNat_false] at h
  have hb : (((run maxq (initState n : SysState C X) es).1).busy.getD
      i false).toNat ≤ 1 := by
    cases hx : ((run maxq (initState n : SysState C X) es).1).busy.getD
        i false <;> simp
  exact ⟨by omega, by omega⟩

/-- C3: waiters queued in order `w1, w2, w3` while all clients are busy are
served by subsequent release notifications strictly in FIFO order,
regardless of which client releases and of further interleaved `acquire`
calls: the hand-off sequence of any continuation is a prefix of
`w1 :: w2 :: w3 ::` (the waiters enqueued later, in order), so the first
hand-off serves `w1`, the second `w2`, the third `w3`. -/
theorem fifo_handoff_order {C X : Type} (n maxq : Nat)
    (es1 es2 : List (Ev C X)) (w1 w2 w3 : RequestData C X)
    (hq : ((run maxq (initState n) es1).1).q = [w1, w2, w3]) :
    ∃ t, obsHandoffs (run maxq ((run maxq (initState n) es1).1) es2).2 ++ t
      = w1 :: w2 :: w3
        :: obsEnqueues (run maxq ((run maxq (initState n) es1).1) es2).2 := by
  have h := queue_conservation maxq es2 ((run maxq (initState n) es1).1)
  rw [hq] at h
  exact ⟨((run maxq ((run maxq (initState n) es1).1) es2).1).q, h.symm⟩

/-- Witness for C3: one client, queue bound 3; the first `acquire` is served
synchronously, the next three are queued as `⟨1,1⟩, ⟨2,2⟩, ⟨3,3⟩`; three
release notifications then hand them off in exactly that order. -/
theorem fifo_handoff_order_witness :
    ((run 3 (initState 1)
        [Ev.acq (10 : Nat) (0 : Nat), Ev.acq 1 1, Ev.acq 2 2, Ev.acq 3 3]).1).q
      = [⟨1, 1⟩, ⟨2, 2⟩, ⟨3, 3⟩]
    ∧ ∃ t, obsHandoffs (run 3 ((run 3 (initState 1)
        [Ev.acq (10 : Nat) (0 : Nat), Ev.acq 1 1, Ev.acq 2 2, Ev.acq 3 3]).1)
          [Ev.rel 0, Ev.rel 0, Ev.rel 0]).2 ++ t
      = ⟨1, 1⟩ :: ⟨2, 2⟩ :: ⟨3, 3⟩
        :: obsEnqueues (run 3 ((run 3 (initState 1)
            [Ev.acq (10 : Nat) (0 : Nat), Ev.acq 1 1, Ev.acq 2 2,
              Ev.acq 3 3]).1) [Ev.rel 0, Ev.rel 0, Ev.rel 0]).2 :=
  ⟨by decide,
    fifo_handoff_order 1 3
      [Ev.acq (10 : Nat) (0 : Nat), Ev.acq 1 1, Ev.acq 2 2, Ev.acq 3 3]
      [Ev.rel 0, Ev.rel 0, Ev.rel 0] ⟨1, 1⟩ ⟨2, 2⟩ ⟨3, 3⟩ (by decide)⟩

/-- If the scan fails, every list element fails the readiness check. -/
theorem scan_none_all {H : Type} (f : H → Bool) (l : List H)
    (h : scan_ready f l = none) : ∀ x ∈ l, f x = false := by
  induction l with
  | nil =>
      intro x hx
      exact absurd hx (List.not_mem_nil x)
  | cons a t ih =>
      by_cases ha : f a = true
      · simp only [scan_ready, ha, if_pos] at h
        exact absurd h (by simp)
      · intro x hx
        simp only [scan_ready, ha, if_neg, Bool.false_eq_true] at h
        rcases List.mem_cons.mp hx with h1 | h2
        · subst h1
          cases hv : f x with
          | false => rfl
          | true => exact absurd hv ha
        · exact ih h x h2

/-- If every client is busy, the busy count is the client count. -/
theorem busyCount_full {C X : Type} (s : SysState C X)
    (hall : ∀ k, k < s.busy.length → s.busy.getD k true = true) :
    busyCount s = s.busy.length := by
  unfold busyCount
  refine List.count_eq_length.mpr ?_
  intro b hb
  rcases List.mem_iff_get.mp hb with ⟨k, hk⟩
  have hx := hall k.1 k.2
  rw [getD_eq_get s.busy true k.1 k.2, hk] at hx
  exact hx.symm

/-- If not every client is busy, the readiness scan finds a client. -/
theorem scan_some_of_not_full {C X : Type} (s : SysState C X)
    (h : busyCount s < s.busy.length) :
    ∃ j, scan_ready (fun k => !(s.busy.getD k true))
      (List.range s.busy.length) = some j := by
  cases hscan : scan_ready (fun k => !(s.busy.getD k true))
      (List.range s.busy.length) with
  | some j => exact ⟨j, rfl⟩
  | none =>
      exfalso
      have hall : ∀ k, k < s.busy.length → s.busy.getD k true = true := by
        intro k hk
        have hx := scan_none_all _ _ hscan k (List.mem_range.mpr hk)
        simpa using hx
      exact absurd (busyCount_full s hall) (Nat.ne_of_lt h)

/-- Underload run: if the queue starts empty, the bound is at least 1, and
at every point strictly fewer clients are busy than exist, then no `acquire`
is rejected or queued, every `acquire` is served synchronously, and the
queue stays empty. -/
theorem underload_run {C X : Type} (maxq : Nat) (es : List (Ev C X))
    (s : SysState C X) (hmax : 1 ≤ maxq) (hq : s.q = [])
    (hload : ∀ k, busyCount ((run maxq s (es.take k)).1) < s.busy.length) :
    obsRejects (run maxq s es).2 = []
    ∧ obsEnqueues (run maxq s es).2 = []
    ∧ (obsServes (run maxq s es).2).length = countAcq es
    ∧ ((run maxq s es).1).q = [] := by
  induction es generalizing s with
  | nil => exact ⟨rfl, rfl, rfl, hq⟩
  | cons e es ih =>
      have hs0 : busyCount s < s.busy.length := hload 0
      have hload' : ∀ k,
          busyCount ((run maxq (step maxq s e).1 (es.take k)).1)
            < ((step maxq s e).1).busy.length := by
        intro k
        have h1 := hload (k+1)
        rw [List.take_succ_cons, run_cons_fst] at h1
        rw [busy_length_step maxq s e]
        exact h1
      cases e with
      | acq cb ctx =>
          have hlt : s.q.length < maxq := by
            rw [hq]
            exact hmax
          rcases scan_some_of_not_full s hs0 with ⟨j, hscan⟩
          have hstep : step maxq s (Ev.acq cb ctx)
              = (⟨s.busy.set j true, s.q⟩, [Obs.serve cb j ctx]) := by
            rw [step_acq, stepAcq_serve maxq s cb ctx j hlt hscan]
          have hq' : ((step maxq s (Ev.acq cb ctx)).1).q = [] := by
            rw [hstep]
            exact hq
          rcases ih (step maxq s (Ev.acq cb ctx)).1 hq' hload' with
            ⟨ih1, ih2, ih3, ih4⟩
          refine ⟨?_, ?_, ?_, ih4⟩
          · rw [run_cons_snd, obsRejects_append, ih1, hstep]
            simp [obsRejects]
          · rw [run_cons_snd, obsEnqueues_append, ih2, hstep]
            simp [obsEnqueues]
          · rw [run_cons_snd, obsServes_append, List.length_append, ih3,
              hstep]
            simp [obsServes, countAcq, List.countP_cons]
            omega
      | rel i =>
          cases hb : s.busy.getD i false with
          | false =>
              have hstep : step maxq s (Ev.rel i) = (s, []) := by
                rw [step_rel, stepRel_idle s i hb]
              have hq' : ((step maxq s (Ev.rel i)).1).q = [] := by
                rw [hstep]
                exact hq
              rcases ih (step maxq s (Ev.rel i)).1 hq' hload' with
                ⟨ih1, ih2, ih3, ih4⟩
              refine ⟨?_, ?_, ?_, ih4⟩
              · rw [run_cons_snd, obsRejects_append, ih1, hstep]
                simp [obsRejects]
              · rw [run_cons_snd, obsEnqueues_append, ih2, hstep]
                simp [obsEnqueues]
              · rw [run_cons_snd, obsServes_append, List.length_append, ih3,
                  hstep]
                simp [obsServes, countAcq, List.countP_cons]
          | true =>
              have hstep : step maxq s (Ev.rel i)
                  = (⟨s.busy.set i false, []⟩, [Obs.complete i]) := by
                rw [step_rel, stepRel_complete s i hb hq]
              have hq' : ((step maxq s (Ev.rel i)).1).q = [] := by
                rw [hstep]
              rcases ih (step maxq s (Ev.rel i)).1 hq' hload' with
                ⟨ih1, ih2, ih3, ih4⟩
              refine ⟨?_, ?_, ?_, ih4⟩
              · rw [run_cons_snd, obsRejects_append, ih1, hstep]
                simp [obsRejects]
              · rw [run_cons_snd, obsEnqueues_append, ih2, hstep]
                simp [obsEnqueues]
              · rw [run_cons_snd, obsServes_append, List.length_append, ih3,
                  hstep]
                simp [obsServes, countAcq, List.countP_cons]

/-- C6 (amended): provided `maxQueueLength ≥ 1`, for every event sequence in
which fewer than `clientCount` clients are ever simultaneously busy, every
`acquire` call is served synchronously (exactly one inline callback
invocation per `acquire`) and no call is queued or rejected. -/
theorem underload_served_synchronously {C X : Type} (n maxq : Nat)
    (es : List (Ev C X)) (hmax : 1 ≤ maxq)
    (hload : ∀ k, busyCount ((run maxq (initState n) (es.take k)).1) < n) :
    obsRejects (run maxq (initState n) es).2 = []
    ∧ obsEnqueues (run maxq (initState n) es).2 = []
    ∧ (obsServes (run maxq (initState n) es).2).length = countAcq es := by
  have hlen : ((initState n : SysState C X)).busy.length = n := by
    show (List.replicate n false).length = n
    exact List.length_replicate n false
  have h := underload_run maxq es (initState n) hmax rfl
    (fun k => by rw [hlen]; exact hload k)
  exact ⟨h.1, h.2.1, h.2.2.1⟩

/-- Witness for C6 (amended): two clients, queue bound 1, a single
`acquire`; at every point fewer than two clients are busy, and the call is
served synchronously, with nothing queued or rejected. -/
theorem underload_served_synchronously_witness :
    obsRejects (run 1 (initState 2) [Ev.acq (7 : Nat) (8 : Nat)]).2 = []
    ∧ obsEnqueues (run 1 (initState 2) [Ev.acq (7 : Nat) (8 : Nat)]).2 = []
    ∧ (obsServes (run 1 (initState 2) [Ev.acq (7 : Nat) (8 : Nat)]).2).length
      = countAcq [Ev.acq (7 : Nat) (8 : Nat)] :=
  underload_served_synchronously 2 1 [Ev.acq 7 8] (by decide)
    (fun k => by
      cases k with
      | zero => decide
      | succ m =>
          rw [List.take_succ_cons, List.take_nil]
          decide)

/-- Counterexample to C6 as stated: `clientCount = 1`, `maxQueueLength = 0`,
a single `acquire` call.  Strictly fewer than one client is busy at every
point of the trace (none ever is), yet the call is rejected by the admission
check — which runs before the readiness scan — instead of being served
synchronously. -/
theorem underload_counterexample :
    busyCount ((run 0 (initState 1) ([] : List (Ev Nat Nat))).1) < 1
    ∧ busyCount ((run 0 (initState 1) [Ev.acq (7 : Nat) (8 : Nat)]).1) < 1
    ∧ obsRejects (run 0 (initState 1) [Ev.acq (7 : Nat) (8 : Nat)]).2
      = [(7, 8)]
    ∧ obsServes (run 0 (initState 1) [Ev.acq (7 : Nat) (8 : Nat)]).2 = []
    ∧ obsEnqueues (run 0 (initState 1) [Ev.acq (7 : Nat) (8 : Nat)]).2
      = [] := by
  decide

/-- C7 is contradicted by the code: the claim — like the function's own
header comment, "return NULL if error" — says a factory failure is
propagated to the caller, but `client_pool_create` never inspects
`client_create`'s result.  Evaluated at `client_count = 1` with a factory
that always fails (returns NULL, modelled as `none`), creation still
returns a pool, with the null handle stored as a wrapped client and wired
for release notifications, instead of propagating the failure. -/
theorem create_ignores_factory_failure :
    client_pool_create (H := Option Nat) (C := Nat) (X := Nat) 1
        (fun _ => none)
      = (⟨[none], []⟩, [none]) := rfl

/-- `destroyedClients` distributes over concatenation. -/
theorem destroyedClients_append {H C X : Type} (a b : List (DestroyEv H C X)) :
    destroyedClients (a ++ b) = destroyedClients a ++ destroyedClients b :=
  List.filterMap_append a b _

/-- `freedWaiters` distributes over concatenation. -/
theorem freedWaiters_append {H C X : Type} (a b : List (DestroyEv H C X)) :
    freedWaiters (a ++ b) = freedWaiters a ++ freedWaiters b :=
  List.filterMap_append a b _

/-- `invokedWaiters` distributes over concatenation. -/
theorem invokedWaiters_append {H C X : Type} (a b : List (DestroyEv H C X)) :
    invokedWaiters (a ++ b) = invokedWaiters a ++ invokedWaiters b :=
  List.filterMap_append a b _

/-- `freeWaiter` actions destroy no client. -/
theorem destroyedClients_freeWaiters {H C X : Type}
    (q : List (RequestData C X)) :
    destroyedClients (q.map
      (fun w => (DestroyEv.freeWaiter w : DestroyEv H C X))) = [] := by
  induction q with
  | nil => rfl
  | cons a t ih => exact ih

/-- `destroyClient` actions destroy exactly their handles, in order. -/
theorem destroyedClients_destroyClients {H C X : Type} (l : List H) :
    destroyedClients (l.map
      (fun c => (DestroyEv.destroyClient c : DestroyEv H C X))) = l := by
  induction l with
  | nil => rfl
  | cons a t ih => exact congrArg (List.cons a) ih

/-- `freeWaiter` actions free exactly their waiters, in order. -/
theorem freedWaiters_freeWaiters {H C X : Type}
    (q : List (RequestData C X)) :
    freedWaiters (q.map
      (fun w => (DestroyEv.freeWaiter w : DestroyEv H C X))) = q := by
  induction q with
  | nil => rfl
  | cons a t ih => exact congrArg (List.cons a) ih

/-- `destroyClient` actions free no waiter. -/
theorem freedWaiters_destroyClients {H C X : Type} (l : List H) :
    freedWaiters (l.map
      (fun c => (DestroyEv.destroyClient c : DestroyEv H C X))) = [] := by
  induction l with
  | nil => rfl
  | cons a t ih => exact ih

/-- `freeWaiter` actions invoke no waiter callback. -/
theorem invokedWaiters_freeWaiters {H C X : Type}
    (q : List (RequestData C X)) :
    invokedWaiters (q.map
      (fun w => (DestroyEv.freeWaiter w : DestroyEv H C X))) = [] := by
  induction q with
  | nil => rfl
  | cons a t ih => exact ih

/-- `destroyClient` actions invoke no waiter callback. -/
theorem invokedWaiters_destroyClients {H C X : Type} (l : List H) :
    invokedWaiters (l.map
      (fun c => (DestroyEv.destroyClient c : DestroyEv H C X))) = [] := by
  induction l with
  | nil => rfl
  | cons a t ih => exact ih

/-- C8: `client_pool_destroy` passes every wrapped client's handle to the
destroy capability exactly once (the destroyed handles are exactly
`l_clients`, in order), frees every still-queued waiter, and invokes no
waiter callback. -/
theorem destroy_spec {H C X : Type} (pool : ClientPool H C X) :
    destroyedClients (client_pool_destroy pool) = pool.l_clients
    ∧ freedWaiters (client_pool_destroy pool) = pool.q_requests
    ∧ invokedWaiters (client_pool_destroy pool) = [] := by
  refine ⟨?_, ?_, ?_⟩
  · unfold client_pool_destroy
    rw [destroyedClients_append, destroyedClients_freeWaiters,
      destroyedClients_destroyClients]
    exact List.nil_append pool.l_clients
  · unfold client_pool_destroy
    rw [freedWaiters_append, freedWaiters_freeWaiters,
      freedWaiters_destroyClients]
    exact List.append_nil pool.q_requests
  · unfold client_pool_destroy
    rw [invokedWaiters_append, invokedWaiters_freeWaiters,
      invokedWaiters_destroyClients]
    rfl

/-- Folding "append one image" equals appending the mapped list. -/
theorem foldl_append_map {α β : Type} (f : α → β) (l : List α)
    (acc : List β) :
    l.foldl (fun a x => a ++ [f x]) acc = acc ++ l.map f := by
  induction l generalizing acc with
  | nil => simp
  | cons a t ih => simp [List.foldl_cons, ih, List.append_assoc]

/-- Mapping a constant yields a `replicate`. -/
theorem map_const_replicate {α β : Type} (b : β) (l : List α) :
    l.map (fun _ => b) = List.replicate l.length b := by
  induction l with
  | nil => rfl
  | cons a t ih => simp [List.map_cons, List.replicate_succ, ih]

/-- C9: `client_pool_get_task_list` returns the pool state unchanged and
appends to the caller's accumulator exactly one info record per wrapped
client, each obtained from the client's `client_get_info` capability and
stamped with the supplied pool name. -/
theorem get_task_list_spec {H C X N I : Type} (pool : ClientPool H C X)
    (client_get_info : H → ClientInfo N I) (l_tasks : List (ClientInfo N I))
    (pool_name : N) :
    client_pool_get_task_list pool client_get_info l_tasks pool_name
      = (pool, l_tasks ++ pool.l_clients.map
          (fun h => { client_get_info h with pool_name := pool_name }))
    ∧ ((client_pool_get_task_list pool client_get_info l_tasks
          pool_name).2).length
      = l_tasks.length + pool.l_clients.length
    ∧ ((client_pool_get_task_list pool client_get_info l_tasks
          pool_name).2.drop l_tasks.length).map ClientInfo.pool_name
      = List.replicate pool.l_clients.length pool_name := by
  have hmain : client_pool_get_task_list pool client_get_info l_tasks
      pool_name
      = (pool, l_tasks ++ pool.l_clients.map
          (fun h => { client_get_info h with pool_name := pool_name })) := by
    unfold client_pool_get_task_list
    rw [foldl_append_map]
  refine ⟨hmain, ?_, ?_⟩
  · rw [hmain]
    simp
  · rw [hmain]
    show ((l_tasks ++ pool.l_clients.map
        (fun h => { client_get_info h with pool_name := pool_name })).drop
          l_tasks.length).map ClientInfo.pool_name
      = List.replicate pool.l_clients.length pool_name
    rw [List.drop_left, List.map_map]
    show pool.l_clients.map (fun _ => pool_name)
      = List.replicate pool.l_clients.length pool_name
    exact map_const_replicate pool_name pool.l_clients

/-- With no clients at all, a run never invokes any callback and the client
list stays empty. -/
theorem zero_clients_run {C X : Type} (maxq : Nat) (es : List (Ev C X))
    (s : SysState C X) (hb : s.busy = []) :
    obsServes (run maxq s es).2 = []
    ∧ obsHandoffs (run maxq s es).2 = []
    ∧ ((run maxq s es).1).busy = [] := by
  induction es generalizing s with
  | nil => exact ⟨rfl, rfl, hb⟩
  | cons e es ih =>
      cases e with
      | acq cb ctx =>
          rcases Nat.lt_or_ge s.q.length maxq with hlt | hge
          · have hscan : scan_ready (fun k => !(s.busy.getD k true))
                (List.range s.busy.length) = none := by
              rw [hb]
              rfl
            have hstep : step maxq s (Ev.acq cb ctx)
                = (⟨s.busy, s.q ++ [⟨cb, ctx⟩]⟩, [Obs.enq ⟨cb, ctx⟩]) := by
              rw [step_acq, stepAcq_enq maxq s cb ctx hlt hscan]
            rcases ih (step maxq s (Ev.acq cb ctx)).1
              (by rw [hstep]; exact hb) with ⟨ih1, ih2, ih3⟩
            refine ⟨?_, ?_, ih3⟩
            · rw [run_cons_snd, obsServes_append, ih1, hstep]
              simp [obsServes]
            · rw [run_cons_snd, obsHandoffs_append, ih2, hstep]
              simp [obsHandoffs]
          · have hstep : step maxq s (Ev.acq cb ctx)
                = (⟨s.busy, s.q⟩, [Obs.reject cb ctx]) := by
              rw [step_acq, stepAcq_reject maxq s cb ctx hge]
            rcases ih (step maxq s (Ev.acq cb ctx)).1
              (by rw [hstep]; exact hb) with ⟨ih1, ih2, ih3⟩
            refine ⟨?_, ?_, ih3⟩
            · rw [run_cons_snd, obsServes_append, ih1, hstep]
              simp [obsServes]
            · rw [run_cons_snd, obsHandoffs_append, ih2, hstep]
              simp [obsHandoffs]
      | rel i =>
          have hbi : s.busy.getD i false = false := by
            rw [hb]
            simp
          have hstep : step maxq s (Ev.rel i) = (s, []) := by
            rw [step_rel, stepRel_idle s i hbi]
          rcases ih (step maxq s (Ev.rel i)).1
            (by rw [hstep]; exact hb) with ⟨ih1, ih2, ih3⟩
          refine ⟨?_, ?_, ih3⟩
          · rw [run_cons_snd, obsServes_append, ih1, hstep]
            simp [obsServes]
          · rw [run_cons_snd, obsHandoffs_append, ih2, hstep]
            simp [obsHandoffs]

/-- C10: with `clientCount = 0` no callback is ever invoked — neither
synchronously by an `acquire` (there is no client to scan) nor later (no
client exists to issue a release notification, so a queued waiter is never
served); every `acquire` with the queue length below `maxQueueLength` is
accepted and enqueued at the tail, and every `acquire` at the bound — in
particular every call when `maxQueueLength = 0` — is rejected. -/
theorem zero_clients_spec {C X : Type} (maxq : Nat) (es : List (Ev C X)) :
    obsServes (run maxq (initState 0) es).2 = []
    ∧ obsHandoffs (run maxq (initState 0) es).2 = []
    ∧ (∀ (s : SysState C X) (cb : C) (ctx : X), s.busy = [] →
        (s.q.length < maxq →
          stepAcq maxq s cb ctx
            = (⟨[], s.q ++ [⟨cb, ctx⟩]⟩, [Obs.enq ⟨cb, ctx⟩]))
        ∧ (maxq ≤ s.q.length →
          stepAcq maxq s cb ctx = (⟨[], s.q⟩, [Obs.reject cb ctx]))) := by
  have h := zero_clients_run maxq es (initState 0) rfl
  refine ⟨h.1, h.2.1, ?_⟩
  intro s cb ctx hbs
  constructor
  · intro hlt
    have hscan : scan_ready (fun k => !(s.busy.getD k true))
        (List.range s.busy.length) = none := by
      rw [hbs]
      rfl
    rw [stepAcq_enq maxq s cb ctx hlt hscan, hbs]
  · intro hge
    rw [stepAcq_reject maxq s cb ctx hge, hbs]

/-- Witness for C10: with no clients, an `acquire` under bound 1 is queued
with no callback invoked, an `acquire` at bound 0 is rejected, and a run
containing a release event still invokes nothing. -/
theorem zero_clients_spec_witness :
    obsServes (run 1 (initState 0) [Ev.acq (3 : Nat) (4 : Nat), Ev.rel 0]).2
      = []
    ∧ obsHandoffs (run 1 (initState 0)
        [Ev.acq (3 : Nat) (4 : Nat), Ev.rel 0]).2 = []
    ∧ stepAcq 1 (⟨[], []⟩ : SysState Nat Nat) 3 4
      = (⟨[], [⟨3, 4⟩]⟩, [Obs.enq ⟨3, 4⟩])
    ∧ stepAcq 0 (⟨[], []⟩ : SysState Nat Nat) 3 4
      = (⟨[], []⟩, [Obs.reject 3 4]) := by
  have h1 := zero_clients_spec (C := Nat) (X := Nat) 1 [Ev.acq 3 4, Ev.rel 0]
  have h0 := zero_clients_spec (C := Nat) (X := Nat) 0 ([] : List (Ev Nat Nat))
  exact ⟨h1.1, h1.2.1,
    (h1.2.2 ⟨[], []⟩ 3 4 rfl).1 (by decide),
    (h0.2.2 ⟨[], []⟩ 3 4 rfl).2 (by decide)⟩
